import Mathlib

/-!
Verification of the loss and data-partition helpers in
`paddlescience/solver/utils.py`.

Tensors of shape `(m,)` are modelled as `List ℝ` (for the boundary-condition
loss, whose batch sizes vary per boundary) or as `Fin m → ℝ` (for the
equation loss, where all tensors share the batch dimension of `inputs`).
The network outputs are modelled as a field `F : (Fin 3 → ℝ) → Fin 4 → ℝ`
evaluated row-wise on the input coordinates; `paddle.static.gradients`
computes exact reverse-mode derivatives, modelled by `fderiv`.
-/

namespace PaddleSolverUtils

noncomputable section

/-- Embedding of `l2_norm_square(x, scale=None)`: `paddle.norm(x, p=2)` is
the square root of the sum of squared entries; with a scale the code computes
`norm(x * scale, 2) / scale` first, and the result is the square of that. -/
def l2_norm_square (x : List ℝ) (scale : Option ℝ) : ℝ :=
  let l2_norm : ℝ :=
    match scale with
    | none => Real.sqrt ((x.map fun t => t ^ 2).sum)
    | some s => Real.sqrt (((x.map fun t => t * s).map fun t => t ^ 2).sum) / s
  l2_norm * l2_norm

/-- Label record for one boundary sub-condition: `labels_attr["bc"][name_b][j]`
holds a right-hand side `rhs` and a `weight`. -/
structure BCLabel where
  rhs : ℝ
  weight : ℝ

/-- Embedding of the dict lookup `{'u': 0, 'v': 1, 'w': 2, 'p': 3}.get(name)`:
Python `dict.get` returns `None` for a missing key. -/
def name2index (n : String) : Option (Fin 4) :=
  if n = "u" then some 0
  else if n = "v" then some 1
  else if n = "w" then some 2
  else if n = "p" then some 3
  else none

/-- Modelled from the spec: the external tensor engine's column indexing
`out_el[:, index]` (the engine itself is not part of this repository).
Per the spec, an unknown boundary-name lookup "fails via the external
tensor/autodiff engine's own error reporting", so indexing with the `None`
produced by a failed lookup is modelled as a failure. -/
def selectColumn (out_el : List (Fin 4 → ℝ)) : Option (Fin 4) → Option (List ℝ)
  | some idx => some (out_el.map fun row => row idx)
  | none => none

/-- One summand of `compute_bc_loss`:
`l2_norm_square((out_el[:, index] - rhs_b) * np.sqrt(wgt_b), 10000)`. -/
def bcSubLoss (out_el : List (Fin 4 → ℝ)) (cond_name : String) (lab : BCLabel) :
    Option ℝ := do
  let col ← selectColumn out_el (name2index cond_name)
  pure (l2_norm_square (col.map fun t => (t - lab.rhs) * Real.sqrt lab.weight)
    (some 10000))

/-- Inner loop of `compute_bc_loss`: `for j in range(len(pde_disc.bc[name_b]))`,
reading `labels_attr["bc"][name_b][j]` positionally (an exhausted label list is
a Python `IndexError`, modelled as `none`). -/
def bcBoundaryLoss (out_el : List (Fin 4 → ℝ)) :
    List String → List BCLabel → Option ℝ
  | [], _ => some 0
  | _ :: _, [] => none
  | cname :: cs, lab :: labs => do
    let t ← bcSubLoss out_el cname lab
    let rest ← bcBoundaryLoss out_el cs labs
    pure (t + rest)

/-- Outer loop of `compute_bc_loss` starting at boundary position `i`: the
boundary at position `i` reads `outputs_var[i + 1]` (a Python `IndexError` on
a short list is modelled as `none`). -/
def bcLossFrom (outputs_var : List (List (Fin 4 → ℝ)))
    (pde_bc : String → List String) (labels_bc : String → List BCLabel) :
    ℕ → List String → Option ℝ
  | _, [] => some 0
  | i, name_b :: rest => do
    let out_el ← outputs_var[i + 1]?
    let b ← bcBoundaryLoss out_el (pde_bc name_b) (labels_bc name_b)
    let r ← bcLossFrom outputs_var pde_bc labels_bc (i + 1) rest
    pure (b + r)

/-- Embedding of `compute_bc_loss(inputs_attr, labels_attr, outputs_var, pde_disc)`:
`bc_names` is the key order of `inputs_attr["bc"]`, `pde_bc name` the list of
condition names `pde_disc.bc[name][j].name`, and `labels_bc name` the list of
`labels_attr["bc"][name][j]` records. The accumulator starts at `0.0`. -/
def compute_bc_loss (bc_names : List String) (pde_bc : String → List String)
    (labels_bc : String → List BCLabel)
    (outputs_var : List (List (Fin 4 → ℝ))) : Option ℝ :=
  bcLossFrom outputs_var pde_bc labels_bc 0 bc_names

/-- Zero boundary mismatch for one boundary: every sub-condition has a valid
channel name and the selected output column equals its right-hand side. -/
def ZeroMismatchBoundary (out_el : List (Fin 4 → ℝ)) :
    List String → List BCLabel → Prop
  | [], _ => True
  | _ :: _, [] => False
  | cname :: cs, lab :: labs =>
    (∃ idx, name2index cname = some idx ∧ ∀ row ∈ out_el, row idx = lab.rhs) ∧
      ZeroMismatchBoundary out_el cs labs

/-- Zero boundary mismatch for the boundaries from position `i` on: each
boundary has its output tensor at `outputs_var[i + 1]` and zero mismatch. -/
def ZeroMismatchFrom (outputs_var : List (List (Fin 4 → ℝ)))
    (pde_bc : String → List String) (labels_bc : String → List BCLabel) :
    ℕ → List String → Prop
  | _, [] => True
  | i, name_b :: rest =>
    (∃ out_el, outputs_var[i + 1]? = some out_el ∧
       ZeroMismatchBoundary out_el (pde_bc name_b) (labels_bc name_b)) ∧
      ZeroMismatchFrom outputs_var pde_bc labels_bc (i + 1) rest

/-- Written from the claim: one boundary's contribution, the sum over its
labeled sub-conditions of `wgt * norm(out[:, index] - rhs)^2` with the channel
`index` given by the fixed name mapping. -/
def bcBoundarySpec (out_el : List (Fin 4 → ℝ)) (cnames : List String)
    (labs : List BCLabel) : ℝ :=
  ((cnames.zip labs).map fun cl =>
    cl.2.weight *
      (out_el.map fun row =>
        (row ((name2index cl.1).getD 0) - cl.2.rhs) ^ 2).sum).sum

/-- Written from the claim: the accumulated sum over the boundaries from
position `i` on, the boundary at position `i` using `outputs_var[i + 1]`. -/
def bc_loss_spec_from (outputs_var : List (List (Fin 4 → ℝ)))
    (pde_bc : String → List String) (labels_bc : String → List BCLabel) :
    ℕ → List String → ℝ
  | _, [] => 0
  | i, name_b :: rest =>
    bcBoundarySpec (outputs_var.getD (i + 1) []) (pde_bc name_b)
        (labels_bc name_b) +
      bc_loss_spec_from outputs_var pde_bc labels_bc (i + 1) rest

/-- Written from the claim: the accumulated weighted squared-L2 deviation over
every boundary and labeled sub-condition. -/
def bc_loss_spec (bc_names : List String) (pde_bc : String → List String)
    (labels_bc : String → List BCLabel)
    (outputs_var : List (List (Fin 4 → ℝ))) : ℝ :=
  bc_loss_spec_from outputs_var pde_bc labels_bc 0 bc_names

/-- Partial derivative in coordinate direction `j`, the per-row meaning of
`paddle.static.gradients([f], [inputs])[:, j]` (reverse-mode automatic
differentiation computes exact derivatives of the graph output). -/
def pd (j : Fin 3) (f : (Fin 3 → ℝ) → ℝ) (ξ : Fin 3 → ℝ) : ℝ :=
  fderiv ℝ f ξ (Pi.single j 1)

/-- Output channel `c` of the network field: `outputs[:, c]` as a function of
the input coordinates. -/
def channel (F : (Fin 3 → ℝ) → Fin 4 → ℝ) (c : Fin 4) : (Fin 3 → ℝ) → ℝ :=
  fun ξ => F ξ c

/-- Embedding of `compute_eq_loss(inputs, outputs, labels_var)`.
Rows of `inputs` are coordinate triples; `outputs` is the field `F` evaluated
row-wise; `labels_var 0/1/2` are the previous-step tensors `u_n, v_n, w_n`.
Each `jac` row is the gradient of one output channel, each `hes` row the
gradient of one `jac` column (derivative of derivative), exactly as the
chained `paddle.static.gradients` calls produce them. -/
def compute_eq_loss {m : ℕ} (F : (Fin 3 → ℝ) → Fin 4 → ℝ)
    (inputs : Fin m → Fin 3 → ℝ) (labels_var : Fin 3 → Fin m → ℝ) : ℝ :=
  let u : Fin m → ℝ := fun k => channel F 0 (inputs k)
  let v : Fin m → ℝ := fun k => channel F 1 (inputs k)
  let w : Fin m → ℝ := fun k => channel F 2 (inputs k)
  let u_n : Fin m → ℝ := labels_var 0
  let v_n : Fin m → ℝ := labels_var 1
  let w_n : Fin m → ℝ := labels_var 2
  let jac0 : Fin m → Fin 3 → ℝ := fun k j => pd j (channel F 0) (inputs k)
  let jac1 : Fin m → Fin 3 → ℝ := fun k j => pd j (channel F 1) (inputs k)
  let jac2 : Fin m → Fin 3 → ℝ := fun k j => pd j (channel F 2) (inputs k)
  let jac3 : Fin m → Fin 3 → ℝ := fun k j => pd j (channel F 3) (inputs k)
  let hes0 : Fin m → Fin 3 → ℝ := fun k j => pd j (pd 0 (channel F 0)) (inputs k)
  let hes1 : Fin m → Fin 3 → ℝ := fun k j => pd j (pd 1 (channel F 0)) (inputs k)
  let hes2 : Fin m → Fin 3 → ℝ := fun k j => pd j (pd 2 (channel F 0)) (inputs k)
  let hes3 : Fin m → Fin 3 → ℝ := fun k j => pd j (pd 0 (channel F 1)) (inputs k)
  let hes4 : Fin m → Fin 3 → ℝ := fun k j => pd j (pd 1 (channel F 1)) (inputs k)
  let hes5 : Fin m → Fin 3 → ℝ := fun k j => pd j (pd 2 (channel F 1)) (inputs k)
  let hes6 : Fin m → Fin 3 → ℝ := fun k j => pd j (pd 0 (channel F 2)) (inputs k)
  let hes7 : Fin m → Fin 3 → ℝ := fun k j => pd j (pd 1 (channel F 2)) (inputs k)
  let hes8 : Fin m → Fin 3 → ℝ := fun k j => pd j (pd 2 (channel F 2)) (inputs k)
  let nu : ℝ := 0.01
  let rho : ℝ := 1.0
  let dt : ℝ := 1.0
  let continuty : Fin m → ℝ := fun k => jac0 k 0 + jac1 k 1 + jac2 k 2
  let momentum_x : Fin m → ℝ := fun k =>
    u k / dt - u_n k / dt + u k * jac0 k 0 + v k * jac0 k 1 + w k * jac0 k 2 -
      nu / rho * hes0 k 0 - nu / rho * hes1 k 1 - nu / rho * hes2 k 2 +
      1.0 / rho * jac3 k 0
  let momentum_y : Fin m → ℝ := fun k =>
    v k / dt - v_n k / dt + u k * jac1 k 0 + v k * jac1 k 1 + w k * jac1 k 2 -
      nu / rho * hes3 k 0 - nu / rho * hes4 k 1 - nu / rho * hes5 k 2 +
      1.0 / rho * jac3 k 1
  let momentum_z : Fin m → ℝ := fun k =>
    w k / dt - w_n k / dt + u k * jac2 k 0 + v k * jac2 k 1 + w k * jac2 k 2 -
      nu / rho * hes6 k 0 - nu / rho * hes7 k 1 - nu / rho * hes8 k 2 +
      1.0 / rho * jac3 k 2
  let rhs : ℝ := 0
  let wgt : ℝ := Real.sqrt 0.01
  l2_norm_square (List.ofFn fun k => (continuty k - rhs) * wgt) none +
    l2_norm_square (List.ofFn fun k => (momentum_x k - rhs) * wgt) none +
    l2_norm_square (List.ofFn fun k => (momentum_y k - rhs) * wgt) none +
    l2_norm_square (List.ofFn fun k => (momentum_z k - rhs) * wgt) none

/-- Written from the claim: the continuity residual du/dx + dv/dy + dw/dz. -/
def continuityResidual (F : (Fin 3 → ℝ) → Fin 4 → ℝ) (ξ : Fin 3 → ℝ) : ℝ :=
  pd 0 (channel F 0) ξ + pd 1 (channel F 1) ξ + pd 2 (channel F 2) ξ

/-- Laplacian of a scalar field, each second derivative taken as a derivative
of the first derivative. -/
def laplacian (f : (Fin 3 → ℝ) → ℝ) (ξ : Fin 3 → ℝ) : ℝ :=
  pd 0 (pd 0 f) ξ + pd 1 (pd 1 f) ξ + pd 2 (pd 2 f) ξ

/-- Written from the claim: the momentum residual for direction `c`
(`c = 0/1/2` for the u/v/w component), with previous-step value `prev`:
`(field - field_n)/dt + u*d(field)/dx + v*d(field)/dy + w*d(field)/dz
 - (nu/rho)*(Laplacian of field) + (1/rho)*(pressure gradient component)`,
with `nu = 0.01`, `rho = 1.0`, `dt = 1.0`. -/
def momentumResidual (F : (Fin 3 → ℝ) → Fin 4 → ℝ) (c : Fin 3) (prev : ℝ)
    (ξ : Fin 3 → ℝ) : ℝ :=
  (channel F c.castSucc ξ - prev) / 1.0 +
    channel F 0 ξ * pd 0 (channel F c.castSucc) ξ +
    channel F 1 ξ * pd 1 (channel F c.castSucc) ξ +
    channel F 2 ξ * pd 2 (channel F c.castSucc) ξ -
    (0.01 / 1.0) * laplacian (channel F c.castSucc) ξ +
    (1.0 / 1.0) * pd c (channel F 3) ξ

/-- Written from the claim: 0.01 times the sum of the squared L2 norms of the
four residuals (continuity and the three momentum components). -/
def eq_loss_spec {m : ℕ} (F : (Fin 3 → ℝ) → Fin 4 → ℝ)
    (inputs : Fin m → Fin 3 → ℝ) (labels_var : Fin 3 → Fin m → ℝ) : ℝ :=
  0.01 *
    (((List.ofFn fun k => continuityResidual F (inputs k)).map fun t => t ^ 2).sum +
      ((List.ofFn fun k =>
        momentumResidual F 0 (labels_var 0 k) (inputs k)).map fun t => t ^ 2).sum +
      ((List.ofFn fun k =>
        momentumResidual F 1 (labels_var 1 k) (inputs k)).map fun t => t ^ 2).sum +
      ((List.ofFn fun k =>
        momentumResidual F 2 (labels_var 2 k) (inputs k)).map fun t => t ^ 2).sum)

end

/-- Slice start used by `data_parallel_partition`: `start = rank * lbsz` with
`lbsz = gbsz // nranks`. -/
def partition_start (nranks rank gbsz : ℕ) : ℕ :=
  rank * (gbsz / nranks)

/-- Slice end used by `data_parallel_partition`: `end = (rank + 1) * lbsz`,
extended by `gbsz % nranks` on the last rank. -/
def partition_end (nranks rank gbsz : ℕ) : ℕ :=
  (rank + 1) * (gbsz / nranks) + if rank = nranks - 1 then gbsz % nranks else 0

/-- Embedding of `data_parallel_partition(data, time_step)` with the module
globals `nranks` and `rank` made explicit. Entries are Python-sliced
(`d[start:end]` is `(d.drop start).take (end - start)` for `start ≤ end`,
clamped at the length); with `time_step > 0` the entries at indices
0, 1, 2, 7, 8, 9 are skipped. -/
def data_parallel_partition {α : Type} (nranks rank time_step : ℕ)
    (data : List (List α)) : List (List α) :=
  if nranks ≤ 1 then data
  else
    data.mapIdx fun i d =>
      if 0 < time_step ∧ (i = 0 ∨ i = 1 ∨ i = 2 ∨ i = 7 ∨ i = 8 ∨ i = 9) then d
      else
        (d.drop (partition_start nranks rank d.length)).take
          (partition_end nranks rank d.length -
            partition_start nranks rank d.length)

/-- Shape computation of `create_inputs_var` for one input of global batch
size `gbsz`: untouched unless `nranks > 1`, in which case
`lbsz = gbsz // nranks`, with the remainder added on the last rank. -/
def create_inputs_var_shape (nranks rank gbsz : ℕ) : ℕ :=
  if 1 < nranks then
    let lbsz := gbsz / nranks
    if rank = nranks - 1 then lbsz + gbsz % nranks else lbsz
  else gbsz

/-- Shape computation of `create_labels_var` for label `i`: the global size is
`npoints` for `i ∈ {0, 1, 2}` and `data_size` otherwise, then the same
partition rule as `create_inputs_var`. -/
def create_labels_var_shape (nranks rank npoints data_size i : ℕ) : ℕ :=
  let gbsz := if i = 0 ∨ i = 1 ∨ i = 2 then npoints else data_size
  if 1 < nranks then
    let lbsz := gbsz / nranks
    if rank = nranks - 1 then lbsz + gbsz % nranks else lbsz
  else gbsz

section L2Lemmas

lemma sum_map_sq_nonneg (x : List ℝ) : 0 ≤ (x.map fun t => t ^ 2).sum := by
  apply List.sum_nonneg
  intro a ha
  obtain ⟨t, -, rfl⟩ := List.mem_map.mp ha
  positivity

lemma l2_norm_square_none (x : List ℝ) :
    l2_norm_square x none = (x.map fun t => t ^ 2).sum := by
  simpa [l2_norm_square] using Real.mul_self_sqrt (sum_map_sq_nonneg x)

lemma l2_norm_square_some (x : List ℝ) (s : ℝ) (hs : s ≠ 0) :
    l2_norm_square x (some s) = (x.map fun t => t ^ 2).sum := by
  have hmap : ((x.map fun t => t * s).map fun t => t ^ 2) =
      x.map fun t => s ^ 2 * t ^ 2 := by
    rw [List.map_map]
    congr 1
    funext t
    simp [Function.comp]
    ring
  have hsum : ((x.map fun t => t * s).map fun t => t ^ 2).sum =
      s ^ 2 * (x.map fun t => t ^ 2).sum := by
    rw [hmap, List.sum_map_mul_left]
  have hA : 0 ≤ ((x.map fun t => t * s).map fun t => t ^ 2).sum :=
    sum_map_sq_nonneg _
  simp only [l2_norm_square]
  rw [div_mul_div_comm, Real.mul_self_sqrt hA, hsum]
  field_simp
  ring

lemma l2_norm_square_nonneg (x : List ℝ) (scale : Option ℝ) :
    0 ≤ l2_norm_square x scale := by
  cases scale <;> exact mul_self_nonneg _

end L2Lemmas

section EqLossLemmas

lemma sum_sq_ofFn {m : ℕ} (g : Fin m → ℝ) :
    ((List.ofFn g).map fun t => t ^ 2).sum = ∑ k, g k ^ 2 := by
  rw [List.map_ofFn, Fin.sum_ofFn]
  simp [Function.comp]

lemma eq_loss_term {m : ℕ} (r : Fin m → ℝ) :
    l2_norm_square (List.ofFn fun k => (r k - 0) * Real.sqrt 0.01) none =
      0.01 * ∑ k, r k ^ 2 := by
  rw [l2_norm_square_none, List.map_ofFn, Fin.sum_ofFn, Finset.mul_sum]
  refine Finset.sum_congr rfl fun k _ => ?_
  have h : (Real.sqrt 0.01) ^ 2 = 0.01 := Real.sq_sqrt (by norm_num)
  simp only [Function.comp, sub_zero]
  rw [mul_pow, h]
  ring

lemma momentum_code_x (F : (Fin 3 → ℝ) → Fin 4 → ℝ) (prev : ℝ) (ξ : Fin 3 → ℝ) :
    channel F 0 ξ / 1.0 - prev / 1.0 +
      channel F 0 ξ * pd 0 (channel F 0) ξ +
      channel F 1 ξ * pd 1 (channel F 0) ξ +
      channel F 2 ξ * pd 2 (channel F 0) ξ -
      0.01 / 1.0 * pd 0 (pd 0 (channel F 0)) ξ -
      0.01 / 1.0 * pd 1 (pd 1 (channel F 0)) ξ -
      0.01 / 1.0 * pd 2 (pd 2 (channel F 0)) ξ +
      1.0 / 1.0 * pd 0 (channel F 3) ξ = momentumResidual F 0 prev ξ := by
  have hc : (Fin.castSucc (0 : Fin 3)) = (0 : Fin 4) := by decide
  unfold momentumResidual laplacian
  rw [hc]
  ring

lemma momentum_code_y (F : (Fin 3 → ℝ) → Fin 4 → ℝ) (prev : ℝ) (ξ : Fin 3 → ℝ) :
    channel F 1 ξ / 1.0 - prev / 1.0 +
      channel F 0 ξ * pd 0 (channel F 1) ξ +
      channel F 1 ξ * pd 1 (channel F 1) ξ +
      channel F 2 ξ * pd 2 (channel F 1) ξ -
      0.01 / 1.0 * pd 0 (pd 0 (channel F 1)) ξ -
      0.01 / 1.0 * pd 1 (pd 1 (channel F 1)) ξ -
      0.01 / 1.0 * pd 2 (pd 2 (channel F 1)) ξ +
      1.0 / 1.0 * pd 1 (channel F 3) ξ = momentumResidual F 1 prev ξ := by
  have hc : (Fin.castSucc (1 : Fin 3)) = (1 : Fin 4) := by decide
  unfold momentumResidual laplacian
  rw [hc]
  ring

lemma momentum_code_z (F : (Fin 3 → ℝ) → Fin 4 → ℝ) (prev : ℝ) (ξ : Fin 3 → ℝ) :
    channel F 2 ξ / 1.0 - prev / 1.0 +
      channel F 0 ξ * pd 0 (channel F 2) ξ +
      channel F 1 ξ * pd 1 (channel F 2) ξ +
      channel F 2 ξ * pd 2 (channel F 2) ξ -
      0.01 / 1.0 * pd 0 (pd 0 (channel F 2)) ξ -
      0.01 / 1.0 * pd 1 (pd 1 (channel F 2)) ξ -
      0.01 / 1.0 * pd 2 (pd 2 (channel F 2)) ξ +
      1.0 / 1.0 * pd 2 (channel F 3) ξ = momentumResidual F 2 prev ξ := by
  have hc : (Fin.castSucc (2 : Fin 3)) = (2 : Fin 4) := by decide
  unfold momentumResidual laplacian
  rw [hc]
  ring

lemma eq_loss_formula_aux {m : ℕ}
    (F : (Fin 3 → ℝ) → Fin 4 → ℝ) (inputs : Fin m → Fin 3 → ℝ)
    (labels_var : Fin 3 → Fin m → ℝ) :
    compute_eq_loss F inputs labels_var = eq_loss_spec F inputs labels_var := by
  unfold compute_eq_loss eq_loss_spec
  simp only [eq_loss_term, sum_sq_ofFn, momentum_code_x, momentum_code_y,
    momentum_code_z, continuityResidual]
  ring

end EqLossLemmas

section ShiftLemmas

lemma fderiv_shift (g : (Fin 3 → ℝ) → ℝ) (c p : Fin 3 → ℝ) :
    fderiv ℝ (fun ξ => g (ξ - c)) (p + c) = fderiv ℝ g p := by
  by_cases h : DifferentiableAt ℝ g p
  · have ht : HasFDerivAt (fun ξ : Fin 3 → ℝ => ξ - c)
        (ContinuousLinearMap.id ℝ (Fin 3 → ℝ)) (p + c) := hasFDerivAt_sub_const c
    have hg : HasFDerivAt g (fderiv ℝ g p) ((fun ξ : Fin 3 → ℝ => ξ - c) (p + c)) := by
      simpa [add_sub_cancel_right] using h.hasFDerivAt
    have h2 := (hg.comp (p + c) ht).fderiv
    simpa [Function.comp] using h2
  · have h1 : ¬ DifferentiableAt ℝ (fun ξ => g (ξ - c)) (p + c) := by
      intro hd
      apply h
      have hcomp : DifferentiableAt ℝ
          ((fun ξ => g (ξ - c)) ∘ fun ξ : Fin 3 → ℝ => ξ + c) p :=
        DifferentiableAt.comp p hd (differentiableAt_id.add_const c)
      simpa [Function.comp_def, add_sub_cancel_right] using hcomp
    rw [fderiv_zero_of_not_differentiableAt h,
      fderiv_zero_of_not_differentiableAt h1]

lemma pd_shift (j : Fin 3) (g : (Fin 3 → ℝ) → ℝ) (c p : Fin 3 → ℝ) :
    pd j (fun ξ => g (ξ - c)) (p + c) = pd j g p := by
  unfold pd
  rw [fderiv_shift]

lemma pd_shift_fun (j : Fin 3) (g : (Fin 3 → ℝ) → ℝ) (c : Fin 3 → ℝ) :
    pd j (fun ξ => g (ξ - c)) = fun η => pd j g (η - c) := by
  funext η
  have h := pd_shift j g c (η - c)
  simpa [sub_add_cancel] using h

lemma pd_pd_shift (j i : Fin 3) (g : (Fin 3 → ℝ) → ℝ) (c p : Fin 3 → ℝ) :
    pd j (pd i (fun ξ => g (ξ - c))) (p + c) = pd j (pd i g) p := by
  rw [pd_shift_fun i g c]
  exact pd_shift j (fun η => pd i g η) c p

lemma pd_const (j : Fin 3) (a : ℝ) : pd j (fun _ => a) = fun _ => 0 := by
  funext ξ
  simp [pd]

end ShiftLemmas

section ZeroLossLemmas

lemma bcSubLoss_zero (out_el : List (Fin 4 → ℝ)) (cname : String) (lab : BCLabel)
    (idx : Fin 4) (hidx : name2index cname = some idx)
    (hz : ∀ row ∈ out_el, row idx = lab.rhs) :
    bcSubLoss out_el cname lab = some 0 := by
  unfold bcSubLoss
  rw [hidx]
  simp only [selectColumn, Option.bind_eq_bind, Option.some_bind]
  rw [l2_norm_square_some _ 10000 (by norm_num)]
  simp only [Option.pure_def, Option.some.injEq]
  apply List.sum_eq_zero
  intro a ha
  simp only [List.map_map, List.mem_map] at ha
  obtain ⟨row, hrow, rfl⟩ := ha
  simp [Function.comp, hz row hrow]

lemma bcBoundaryLoss_zero (out_el : List (Fin 4 → ℝ)) :
    ∀ (cs : List String) (labs : List BCLabel),
      ZeroMismatchBoundary out_el cs labs →
      bcBoundaryLoss out_el cs labs = some 0
  | [], _, _ => rfl
  | _ :: _, [], h => h.elim
  | cname :: cs, lab :: labs, h => by
    obtain ⟨⟨idx, hidx, hz⟩, hrest⟩ := h
    unfold bcBoundaryLoss
    rw [bcSubLoss_zero out_el cname lab idx hidx hz,
      bcBoundaryLoss_zero out_el cs labs hrest]
    simp

lemma bcLossFrom_zero (outputs_var : List (List (Fin 4 → ℝ)))
    (pde_bc : String → List String) (labels_bc : String → List BCLabel) :
    ∀ (i : ℕ) (names : List String),
      ZeroMismatchFrom outputs_var pde_bc labels_bc i names →
      bcLossFrom outputs_var pde_bc labels_bc i names = some 0
  | _, [], _ => rfl
  | i, name_b :: rest, h => by
    obtain ⟨⟨out_el, hout, hb⟩, hrest⟩ := h
    unfold bcLossFrom
    rw [hout]
    have h1 := bcBoundaryLoss_zero out_el _ _ hb
    have h2 := bcLossFrom_zero outputs_var pde_bc labels_bc (i + 1) rest hrest
    simp [h1, h2]

lemma compute_eq_loss_zero {m : ℕ} (F : (Fin 3 → ℝ) → Fin 4 → ℝ)
    (inputs : Fin m → Fin 3 → ℝ) (labels_var : Fin 3 → Fin m → ℝ)
    (hcont : ∀ k, continuityResidual F (inputs k) = 0)
    (hmom : ∀ (c : Fin 3) (k : Fin m),
      momentumResidual F c (labels_var c k) (inputs k) = 0) :
    compute_eq_loss F inputs labels_var = 0 := by
  rw [eq_loss_formula_aux]
  unfold eq_loss_spec
  simp [sum_sq_ofFn, hcont, hmom]

lemma zero_field_continuity (ξ : Fin 3 → ℝ) :
    continuityResidual (fun _ _ => (0 : ℝ)) ξ = 0 := by
  have hch : ∀ c : Fin 4, channel (fun _ _ => (0 : ℝ)) c = fun _ => 0 :=
    fun _ => rfl
  simp [continuityResidual, hch, pd_const]

lemma zero_field_momentum (c : Fin 3) (ξ : Fin 3 → ℝ) :
    momentumResidual (fun _ _ => (0 : ℝ)) c 0 ξ = 0 := by
  have hch : ∀ c : Fin 4, channel (fun _ _ => (0 : ℝ)) c = fun _ => 0 :=
    fun _ => rfl
  simp [momentumResidual, laplacian, hch, pd_const]

end ZeroLossLemmas

section BcEvalLemmas

lemma map_sq_scale (out_el : List (Fin 4 → ℝ)) (idx : Fin 4) (rhs w : ℝ)
    (hw : 0 ≤ w) :
    (((out_el.map fun row => row idx).map
      fun t => (t - rhs) * Real.sqrt w).map fun t => t ^ 2).sum =
      w * (out_el.map fun row => (row idx - rhs) ^ 2).sum := by
  induction out_el with
  | nil => simp
  | cons r rest ih =>
    simp only [List.map_cons, List.sum_cons, ih]
    rw [mul_pow, Real.sq_sqrt hw]
    ring

lemma bcSubLoss_eval (out_el : List (Fin 4 → ℝ)) (cname : String)
    (lab : BCLabel) (idx : Fin 4) (hidx : name2index cname = some idx)
    (hw : 0 ≤ lab.weight) :
    bcSubLoss out_el cname lab =
      some (lab.weight *
        (out_el.map fun row => (row idx - lab.rhs) ^ 2).sum) := by
  unfold bcSubLoss
  rw [hidx]
  simp only [selectColumn, Option.bind_eq_bind, Option.some_bind,
    Option.pure_def, Option.some.injEq]
  rw [l2_norm_square_some _ 10000 (by norm_num)]
  exact map_sq_scale out_el idx lab.rhs lab.weight hw

lemma bcBoundaryLoss_eval (out_el : List (Fin 4 → ℝ)) :
    ∀ (cs : List String) (labs : List BCLabel),
      cs.length ≤ labs.length →
      (∀ cn ∈ cs, (name2index cn).isSome) →
      (∀ lab ∈ labs, 0 ≤ lab.weight) →
      bcBoundaryLoss out_el cs labs = some (bcBoundarySpec out_el cs labs)
  | [], labs, _, _, _ => by simp [bcBoundaryLoss, bcBoundarySpec]
  | _ :: _, [], hlen, _, _ => by simp at hlen
  | c :: cs, lab :: labs, hlen, hname, hw => by
    obtain ⟨idx, hidx⟩ := Option.isSome_iff_exists.mp (hname c (by simp))
    have h1 := bcSubLoss_eval out_el c lab idx hidx (hw lab (by simp))
    have h2 := bcBoundaryLoss_eval out_el cs labs (by simpa using hlen)
      (fun cn hcn => hname cn (by simp [hcn]))
      (fun l hl => hw l (by simp [hl]))
    unfold bcBoundaryLoss
    simp [h1, h2, bcBoundarySpec, hidx]

lemma bcLossFrom_eval (outputs_var : List (List (Fin 4 → ℝ)))
    (pde_bc : String → List String) (labels_bc : String → List BCLabel) :
    ∀ (i : ℕ) (names : List String),
      (∀ k, k < names.length → i + 1 + k < outputs_var.length) →
      (∀ nb ∈ names, (pde_bc nb).length ≤ (labels_bc nb).length) →
      (∀ nb ∈ names, ∀ cn ∈ pde_bc nb, (name2index cn).isSome) →
      (∀ nb ∈ names, ∀ lab ∈ labels_bc nb, 0 ≤ lab.weight) →
      bcLossFrom outputs_var pde_bc labels_bc i names =
        some (bc_loss_spec_from outputs_var pde_bc labels_bc i names)
  | _, [], _, _, _, _ => by simp [bcLossFrom, bc_loss_spec_from]
  | i, nb :: rest, hlen, hlab, hname, hw => by
    have hi : i + 1 < outputs_var.length := by
      have := hlen 0 (by simp)
      omega
    have hout : outputs_var[i + 1]? = some (outputs_var.getD (i + 1) []) := by
      rw [List.getD_eq_getElem?_getD, List.getElem?_eq_getElem hi]
      rfl
    have h1 := bcBoundaryLoss_eval (outputs_var.getD (i + 1) [])
      (pde_bc nb) (labels_bc nb) (hlab nb (by simp)) (hname nb (by simp))
      (hw nb (by simp))
    have h2 := bcLossFrom_eval outputs_var pde_bc labels_bc (i + 1) rest
      (fun k hk => by
        have := hlen (k + 1) (by simpa using Nat.succ_lt_succ hk)
        omega)
      (fun x hx => hlab x (by simp [hx]))
      (fun x hx => hname x (by simp [hx]))
      (fun x hx => hw x (by simp [hx]))
    unfold bcLossFrom
    rw [hout]
    simp only [Option.bind_eq_bind, Option.some_bind]
    rw [h1]
    simp only [Option.some_bind]
    rw [h2]
    simp only [Option.some_bind, Option.pure_def, Option.some.injEq]
    rw [bc_loss_spec_from]

end BcEvalLemmas

section BcSideLemmas

lemma bc_single_loss (w : ℝ) (hw : 0 ≤ w) :
    compute_bc_loss ["b"] (fun _ => ["u"]) (fun _ => [⟨0, w⟩])
      [[], [fun _ => (1 : ℝ)]] = some w := by
  unfold compute_bc_loss bcLossFrom bcBoundaryLoss
  have hidx : name2index "u" = some 0 := rfl
  have h1 := bcSubLoss_eval [fun _ => (1 : ℝ)] "u" ⟨0, w⟩ 0 hidx hw
  simp [h1, bcBoundaryLoss, bcLossFrom]

lemma bcSubLoss_nonneg (out_el : List (Fin 4 → ℝ)) (cname : String)
    (lab : BCLabel) (t : ℝ) (h : bcSubLoss out_el cname lab = some t) :
    0 ≤ t := by
  unfold bcSubLoss at h
  cases hn : name2index cname with
  | none => rw [hn] at h; simp [selectColumn] at h
  | some idx =>
    rw [hn] at h
    simp only [selectColumn, Option.bind_eq_bind, Option.some_bind,
      Option.pure_def, Option.some.injEq] at h
    exact h ▸ l2_norm_square_nonneg _ _

lemma bcBoundaryLoss_nonneg (out_el : List (Fin 4 → ℝ)) :
    ∀ (cs : List String) (labs : List BCLabel) (t : ℝ),
      bcBoundaryLoss out_el cs labs = some t → 0 ≤ t
  | [], labs, t, h => by
    simp only [bcBoundaryLoss, Option.some.injEq] at h
    exact h ▸ le_rfl
  | _ :: _, [], t, h => by simp [bcBoundaryLoss] at h
  | c :: cs, lab :: labs, t, h => by
    unfold bcBoundaryLoss at h
    cases h1 : bcSubLoss out_el c lab with
    | none => rw [h1] at h; simp at h
    | some a =>
      rw [h1] at h
      simp only [Option.bind_eq_bind, Option.some_bind] at h
      cases h2 : bcBoundaryLoss out_el cs labs with
      | none => rw [h2] at h; simp at h
      | some b =>
        rw [h2] at h
        simp only [Option.some_bind, Option.pure_def, Option.some.injEq] at h
        have ha := bcSubLoss_nonneg out_el c lab a h1
        have hb := bcBoundaryLoss_nonneg out_el cs labs b h2
        linarith [h.symm.le, h.le]

lemma bcLossFrom_nonneg (outputs_var : List (List (Fin 4 → ℝ)))
    (pde_bc : String → List String) (labels_bc : String → List BCLabel) :
    ∀ (i : ℕ) (names : List String) (t : ℝ),
      bcLossFrom outputs_var pde_bc labels_bc i names = some t → 0 ≤ t
  | _, [], t, h => by
    simp only [bcLossFrom, Option.some.injEq] at h
    exact h ▸ le_rfl
  | i, nb :: rest, t, h => by
    unfold bcLossFrom at h
    cases hout : outputs_var[i + 1]? with
    | none => rw [hout] at h; simp at h
    | some out_el =>
      rw [hout] at h
      simp only [Option.bind_eq_bind, Option.some_bind] at h
      cases h1 : bcBoundaryLoss out_el (pde_bc nb) (labels_bc nb) with
      | none => rw [h1] at h; simp at h
      | some b =>
        rw [h1] at h
        simp only [Option.some_bind] at h
        cases h2 : bcLossFrom outputs_var pde_bc labels_bc (i + 1) rest with
        | none => rw [h2] at h; simp at h
        | some r =>
          rw [h2] at h
          simp only [Option.some_bind, Option.pure_def, Option.some.injEq] at h
          have hb := bcBoundaryLoss_nonneg out_el (pde_bc nb) (labels_bc nb) b h1
          have hr := bcLossFrom_nonneg outputs_var pde_bc labels_bc (i + 1) rest r h2
          linarith [h.le, h.symm.le]

lemma compute_eq_loss_nonneg {m : ℕ} (F : (Fin 3 → ℝ) → Fin 4 → ℝ)
    (inputs : Fin m → Fin 3 → ℝ) (labels_var : Fin 3 → Fin m → ℝ) :
    0 ≤ compute_eq_loss F inputs labels_var := by
  rw [eq_loss_formula_aux]
  unfold eq_loss_spec
  have h1 := sum_map_sq_nonneg
    (List.ofFn fun k => continuityResidual F (inputs k))
  have h2 := sum_map_sq_nonneg
    (List.ofFn fun k => momentumResidual F 0 (labels_var 0 k) (inputs k))
  have h3 := sum_map_sq_nonneg
    (List.ofFn fun k => momentumResidual F 1 (labels_var 1 k) (inputs k))
  have h4 := sum_map_sq_nonneg
    (List.ofFn fun k => momentumResidual F 2 (labels_var 2 k) (inputs k))
  have : (0 : ℝ) ≤ 0.01 := by norm_num
  exact mul_nonneg this (by linarith)

lemma name2index_unknown (n : String) (h1 : n ≠ "u") (h2 : n ≠ "v")
    (h3 : n ≠ "w") (h4 : n ≠ "p") : name2index n = none := by
  unfold name2index
  rw [if_neg h1, if_neg h2, if_neg h3, if_neg h4]

lemma bcSubLoss_unknown (out_el : List (Fin 4 → ℝ)) (cname : String)
    (lab : BCLabel) (h : name2index cname = none) :
    bcSubLoss out_el cname lab = none := by
  unfold bcSubLoss
  rw [h]
  rfl

lemma bcBoundaryLoss_unknown (out_el : List (Fin 4 → ℝ)) :
    ∀ (cs : List String) (labs : List BCLabel),
      (∃ cn ∈ cs, name2index cn = none) →
      bcBoundaryLoss out_el cs labs = none
  | [], _, h => by simp at h
  | _ :: _, [], _ => rfl
  | c :: cs, lab :: labs, h => by
    unfold bcBoundaryLoss
    by_cases hc : name2index c = none
    · rw [bcSubLoss_unknown out_el c lab hc]
      rfl
    · obtain ⟨cn, hcn, hnone⟩ := h
      have hcs : cn ∈ cs := by
        rcases List.mem_cons.mp hcn with h1 | h1
        · exact absurd (h1 ▸ hnone) hc
        · exact h1
      have hrec := bcBoundaryLoss_unknown out_el cs labs ⟨cn, hcs, hnone⟩
      cases hsub : bcSubLoss out_el c lab with
      | none => simp [hsub]
      | some a => simp [hsub, hrec]

lemma bcLossFrom_unknown (outputs_var : List (List (Fin 4 → ℝ)))
    (pde_bc : String → List String) (labels_bc : String → List BCLabel) :
    ∀ (i : ℕ) (names : List String) (name_b cname : String),
      name_b ∈ names → cname ∈ pde_bc name_b → name2index cname = none →
      bcLossFrom outputs_var pde_bc labels_bc i names = none
  | _, [], _, _, hmem, _, _ => by simp at hmem
  | i, nb :: rest, name_b, cname, hmem, hcn, hnone => by
    unfold bcLossFrom
    rcases List.mem_cons.mp hmem with h1 | h1
    · subst h1
      cases hout : outputs_var[i + 1]? with
      | none => simp [hout]
      | some out_el =>
        have hb := bcBoundaryLoss_unknown out_el (pde_bc name_b)
          (labels_bc name_b) ⟨cname, hcn, hnone⟩
        simp [hout, hb]
    · cases hout : outputs_var[i + 1]? with
      | none => simp [hout]
      | some out_el =>
        have hrec := bcLossFrom_unknown outputs_var pde_bc labels_bc (i + 1)
          rest name_b cname h1 hcn hnone
        cases hb : bcBoundaryLoss out_el (pde_bc nb) (labels_bc nb) with
        | none => simp [hout, hb]
        | some b => simp [hout, hb, hrec]

end BcSideLemmas

section PartitionLemmas

lemma partition_start_le_end (n r g : ℕ) :
    partition_start n r g ≤ partition_end n r g := by
  unfold partition_start partition_end
  have h : r * (g / n) ≤ (r + 1) * (g / n) :=
    Nat.mul_le_mul_right _ (Nat.le_succ r)
  omega

lemma partition_start_zero (n g : ℕ) : partition_start n 0 g = 0 :=
  Nat.zero_mul _

lemma partition_end_last (n g : ℕ) (hn : 1 ≤ n) :
    partition_end n (n - 1) g = g := by
  unfold partition_end
  rw [if_pos rfl]
  have h2 := Nat.div_add_mod g n
  have h3 : n - 1 + 1 = n := by omega
  rw [h3]
  exact h2

lemma partition_chain (n r g : ℕ) (h : r + 1 < n) :
    partition_end n r g = partition_start n (r + 1) g := by
  unfold partition_start partition_end
  rw [if_neg (by omega)]
  omega

lemma partition_size (n r g : ℕ) :
    partition_end n r g - partition_start n r g =
      g / n + if r = n - 1 then g % n else 0 := by
  unfold partition_start partition_end
  generalize g / n = y
  generalize g % n = z
  have h : (r + 1) * y = r * y + y := by ring
  rw [h]
  rcases eq_or_ne r (n - 1) with hr | hr
  · rw [if_pos hr]
    omega
  · rw [if_neg hr]
    omega

lemma partition_sizes_sum (n g : ℕ) (hn : 1 ≤ n) :
    (∑ r ∈ Finset.range n,
      (partition_end n r g - partition_start n r g)) = g := by
  obtain ⟨k, rfl⟩ : ∃ k, n = k + 1 :=
    ⟨n - 1, (Nat.succ_pred_eq_of_pos hn).symm⟩
  rw [Finset.sum_range_succ]
  have h1 : ∀ r ∈ Finset.range k,
      partition_end (k + 1) r g - partition_start (k + 1) r g =
        g / (k + 1) := by
    intro r hr
    rw [partition_size, if_neg (by simp at hr; omega)]
    omega
  rw [Finset.sum_congr rfl h1, Finset.sum_const, Finset.card_range,
    partition_size, if_pos (by omega), smul_eq_mul]
  have h2 := Nat.div_add_mod g (k + 1)
  have h3 : (k + 1) * (g / (k + 1)) = k * (g / (k + 1)) + g / (k + 1) := by
    ring
  omega

lemma partition_disjoint (n g r1 r2 : ℕ) (h12 : r1 < r2) (h2 : r2 < n) :
    partition_end n r1 g ≤ partition_start n r2 g := by
  rw [partition_chain n r1 g (by omega)]
  unfold partition_start
  exact Nat.mul_le_mul_right _ (by omega)

lemma partition_mem_exists (n g k : ℕ) (hn : 1 ≤ n) (hk : k < g) :
    ∃ r, r < n ∧ partition_start n r g ≤ k ∧ k < partition_end n r g := by
  by_cases h0 : g / n = 0
  · refine ⟨n - 1, by omega, ?_, ?_⟩
    · unfold partition_start
      rw [h0]
      simp
    · rw [partition_end_last n g hn]
      exact hk
  · by_cases hbig : n - 1 ≤ k / (g / n)
    · refine ⟨n - 1, by omega, ?_, ?_⟩
      · unfold partition_start
        calc (n - 1) * (g / n) ≤ k / (g / n) * (g / n) :=
              Nat.mul_le_mul_right _ hbig
          _ ≤ k := Nat.div_mul_le_self k (g / n)
      · rw [partition_end_last n g hn]
        exact hk
    · push_neg at hbig
      refine ⟨k / (g / n), by omega, ?_, ?_⟩
      · unfold partition_start
        exact Nat.div_mul_le_self k (g / n)
      · unfold partition_end
        rw [if_neg (by omega)]
        have hlt : k < (k / (g / n) + 1) * (g / n) :=
          (Nat.div_lt_iff_lt_mul (Nat.pos_of_ne_zero h0)).mp
            (Nat.lt_succ_self _)
        omega

lemma create_inputs_var_shape_eq (n r g : ℕ) (hn : 1 ≤ n) (hr : r < n) :
    create_inputs_var_shape n r g =
      partition_end n r g - partition_start n r g := by
  rw [partition_size]
  unfold create_inputs_var_shape
  rcases Nat.lt_or_ge 1 n with h | h
  · rw [if_pos h]
    rcases eq_or_ne r (n - 1) with hr1 | hr1
    · rw [if_pos hr1, if_pos hr1]
    · rw [if_neg hr1, if_neg hr1]
      omega
  · have hn1 : n = 1 := by omega
    have hr0 : r = 0 := by omega
    subst hn1
    subst hr0
    simp [Nat.mod_one]

lemma data_parallel_partition_identity {α : Type} (nr rk ts : ℕ)
    (data : List (List α)) (h : nr ≤ 1) :
    data_parallel_partition nr rk ts data = data := by
  unfold data_parallel_partition
  rw [if_pos h]

lemma getElem?_mapIdx_local {α β : Type} (l : List α) (f : ℕ → α → β)
    (i : ℕ) : (l.mapIdx f)[i]? = (l[i]?).map fun d => f i d := by
  by_cases h : i < l.length
  · have h2 : i < (l.mapIdx f).length := by
      rw [List.length_mapIdx]
      exact h
    rw [List.getElem?_eq_getElem h2, List.getElem?_eq_getElem h]
    have h3 := List.get_mapIdx l f i h h2
    simp only [List.get_eq_getElem] at h3
    simp [h3]
  · have h2 : ¬ i < (l.mapIdx f).length := by
      rw [List.length_mapIdx]
      exact h
    rw [List.getElem?_eq_none (by omega), List.getElem?_eq_none (by omega)]
    rfl

lemma partition_mem_unique (n g k r1 r2 : ℕ)
    (h1 : r1 < n ∧ partition_start n r1 g ≤ k ∧ k < partition_end n r1 g)
    (h2 : r2 < n ∧ partition_start n r2 g ≤ k ∧ k < partition_end n r2 g) :
    r1 = r2 := by
  obtain ⟨h1a, h1b, h1c⟩ := h1
  obtain ⟨h2a, h2b, h2c⟩ := h2
  rcases lt_trichotomy r1 r2 with h | h | h
  · have hd := partition_disjoint n g r1 r2 h h2a
    omega
  · exact h
  · have hd := partition_disjoint n g r2 r1 h h1a
    omega

end PartitionLemmas

/-- C9: for `nranks = n ≥ 1` the row ranges assigned by
`data_parallel_partition` (start `r * (g / n)`, end `(r + 1) * (g / n)`,
extended by `g % n` on the last rank) tile `[0, g)`: consecutive ranges are
contiguous, every row below `g` belongs to exactly one rank, the per-rank
sizes are `g / n` (`g / n + g % n` on the last rank) and sum to `g`; the
same sizing rule is computed by `create_inputs_var` and `create_labels_var`,
and with `nranks ≤ 1` the data list is returned unchanged. -/
theorem data_parallel_partition_covers (n g : ℕ) (hn : 1 ≤ n) :
    (∀ k, k < g → ∃! r, r < n ∧ partition_start n r g ≤ k ∧
      k < partition_end n r g) ∧
    (∀ r, r + 1 < n → partition_end n r g = partition_start n (r + 1) g) ∧
    partition_start n 0 g = 0 ∧
    partition_end n (n - 1) g = g ∧
    (∀ r, r < n → partition_end n r g - partition_start n r g =
      g / n + if r = n - 1 then g % n else 0) ∧
    (∑ r ∈ Finset.range n,
      (partition_end n r g - partition_start n r g)) = g ∧
    (∀ r, r < n → create_inputs_var_shape n r g =
      partition_end n r g - partition_start n r g) ∧
    (∀ npoints data_size i r, r < n →
      create_labels_var_shape n r npoints data_size i =
        partition_end n r
            (if i = 0 ∨ i = 1 ∨ i = 2 then npoints else data_size) -
          partition_start n r
            (if i = 0 ∨ i = 1 ∨ i = 2 then npoints else data_size)) ∧
    (∀ (α : Type) (nr rk ts : ℕ) (data : List (List α)), nr ≤ 1 →
      data_parallel_partition nr rk ts data = data) := by
  refine ⟨?_, fun r hr => partition_chain n r g hr, partition_start_zero n g,
    partition_end_last n g hn, fun r _ => partition_size n r g,
    partition_sizes_sum n g hn,
    fun r hr => create_inputs_var_shape_eq n r g hn hr,
    fun npoints data_size i r hr => ?_,
    fun α nr rk ts data h => data_parallel_partition_identity nr rk ts data h⟩
  · intro k hk
    obtain ⟨r, hr⟩ := partition_mem_exists n g k hn hk
    exact ⟨r, hr, fun r2 h2 => partition_mem_unique n g k r2 r h2 hr⟩
  · have hdef : create_labels_var_shape n r npoints data_size i =
        create_inputs_var_shape n r
          (if i = 0 ∨ i = 1 ∨ i = 2 then npoints else data_size) := rfl
    rw [hdef]
    exact create_inputs_var_shape_eq n r _ hn hr

/-- Witness for C9 at `nranks = 2`, `gbsz = 5`. -/
theorem data_parallel_partition_covers_witness :
    (1 : ℕ) ≤ 2 ∧ partition_end 2 1 5 = 5 ∧ partition_start 2 0 5 = 0 :=
  ⟨by decide, (data_parallel_partition_covers 2 5 (by decide)).2.2.2.1,
    (data_parallel_partition_covers 2 5 (by decide)).2.2.1⟩

/-- C10: with `time_step > 0`, `data_parallel_partition` keeps the entries at
indices 0, 1, 2, 7, 8, 9 unchanged, replaces every other entry only by a
contiguous slice of itself, and modifies nothing else (the length and all
positions are as described). -/
theorem data_parallel_partition_frame {α : Type} (nranks rank time_step : ℕ)
    (data : List (List α)) (ht : 0 < time_step) :
    (data_parallel_partition nranks rank time_step data).length =
        data.length ∧
      (∀ i, (i = 0 ∨ i = 1 ∨ i = 2 ∨ i = 7 ∨ i = 8 ∨ i = 9) →
        (data_parallel_partition nranks rank time_step data)[i]? =
          data[i]?) ∧
      (∀ i d, ¬(i = 0 ∨ i = 1 ∨ i = 2 ∨ i = 7 ∨ i = 8 ∨ i = 9) →
        data[i]? = some d →
        ∃ s t, (data_parallel_partition nranks rank time_step data)[i]? =
          some ((d.drop s).take t)) := by
  unfold data_parallel_partition
  by_cases h : nranks ≤ 1
  · rw [if_pos h]
    refine ⟨rfl, fun i _ => rfl, fun i d _ hd => ⟨0, d.length, ?_⟩⟩
    simp [hd]
  · rw [if_neg h]
    refine ⟨by simp [List.length_mapIdx], ?_, ?_⟩
    · intro i hi
      rw [getElem?_mapIdx_local]
      cases hd : data[i]? with
      | none => rfl
      | some d =>
        simp only [Option.map_some']
        rw [if_pos ⟨ht, hi⟩]
    · intro i d hi hd
      rw [getElem?_mapIdx_local, hd]
      refine ⟨partition_start nranks rank d.length,
        partition_end nranks rank d.length -
          partition_start nranks rank d.length, ?_⟩
      simp only [Option.map_some']
      rw [if_neg fun hcon => hi hcon.2]

/-- Witness for C10 at two ranks, rank 0, `time_step = 1`. -/
theorem data_parallel_partition_frame_witness :
    (0 : ℕ) < 1 ∧
      (data_parallel_partition 2 0 1
          [[0], [1], [2], [3, 4], [5], [6], [7], [8], [9], [10]]).length =
        ([[0], [1], [2], [3, 4], [5], [6], [7], [8], [9], [10]] :
          List (List ℕ)).length ∧
      ∃ s t, (data_parallel_partition 2 0 1
          [[0], [1], [2], [3, 4], [5], [6], [7], [8], [9], [10]])[3]? =
        some ((([3, 4] : List ℕ).drop s).take t) :=
  ⟨by decide,
    (data_parallel_partition_frame 2 0 1 _ (by decide)).1,
    (data_parallel_partition_frame 2 0 1 _ (by decide)).2.2 3 [3, 4]
      (by decide) rfl⟩

/-- C1: `compute_eq_loss` returns the sum over the four residuals of the
squared L2 norm of `(residual * sqrt 0.01)`, which equals `0.01` times the
sum of the squared L2 norms of the continuity residual and the three
momentum residuals, with `nu = 0.01`, `rho = 1.0`, `dt = 1.0`. -/
theorem compute_eq_loss_residual_formula {m : ℕ}
    (F : (Fin 3 → ℝ) → Fin 4 → ℝ) (inputs : Fin m → Fin 3 → ℝ)
    (labels_var : Fin 3 → Fin m → ℝ) :
    compute_eq_loss F inputs labels_var = eq_loss_spec F inputs labels_var :=
  eq_loss_formula_aux F inputs labels_var

/-- C3: `l2_norm_square x` (scale omitted) is the sum of the squares of the
elements of `x`, and for every nonzero scale the scaled variant returns the
same value (the scale cancels in exact arithmetic). -/
theorem l2_norm_square_sum_sq_and_scale_invariant (x : List ℝ) :
    l2_norm_square x none = (x.map fun t => t ^ 2).sum ∧
      ∀ s : ℝ, s ≠ 0 → l2_norm_square x (some s) = l2_norm_square x none := by
  refine ⟨l2_norm_square_none x, fun s hs => ?_⟩
  rw [l2_norm_square_some x s hs, l2_norm_square_none]

/-- C7: `compute_eq_loss` is unchanged when all spatial coordinates are
translated by a constant offset `c` while the field as a function of space is
the same (the translated graph evaluates the field `F` at `ξ - c` on the
translated points, so outputs and all derivatives are unchanged). -/
theorem compute_eq_loss_translation_invariant {m : ℕ}
    (F : (Fin 3 → ℝ) → Fin 4 → ℝ) (c : Fin 3 → ℝ)
    (inputs : Fin m → Fin 3 → ℝ) (labels_var : Fin 3 → Fin m → ℝ) :
    compute_eq_loss (fun ξ => F (ξ - c)) (fun k => inputs k + c) labels_var =
      compute_eq_loss F inputs labels_var := by
  unfold compute_eq_loss
  have hch : ∀ ch : Fin 4,
      channel (fun ξ => F (ξ - c)) ch = fun ξ => channel F ch (ξ - c) :=
    fun _ => rfl
  simp only [hch, pd_pd_shift, pd_shift, add_sub_cancel_right]

/-- C5: the equation loss is 0 when all four residuals vanish identically,
the boundary loss is 0 under zero boundary mismatch, and in particular the
zero field on the single input row (0,0,0) with zero previous-step labels
gives equation loss 0. -/
theorem losses_vanish_on_exact_solution :
    (∀ (m : ℕ) (F : (Fin 3 → ℝ) → Fin 4 → ℝ) (inputs : Fin m → Fin 3 → ℝ)
        (labels_var : Fin 3 → Fin m → ℝ),
      (∀ k, continuityResidual F (inputs k) = 0) →
      (∀ (c : Fin 3) (k : Fin m),
        momentumResidual F c (labels_var c k) (inputs k) = 0) →
      compute_eq_loss F inputs labels_var = 0) ∧
    (∀ (bc_names : List String) (pde_bc : String → List String)
        (labels_bc : String → List BCLabel)
        (outputs_var : List (List (Fin 4 → ℝ))),
      ZeroMismatchFrom outputs_var pde_bc labels_bc 0 bc_names →
      compute_bc_loss bc_names pde_bc labels_bc outputs_var = some 0) ∧
    compute_eq_loss (fun _ _ => (0 : ℝ)) (fun _ : Fin 1 => fun _ => (0 : ℝ))
      (fun _ _ => (0 : ℝ)) = 0 := by
  refine ⟨?_, ?_, ?_⟩
  · intro m F inputs labels_var hcont hmom
    exact compute_eq_loss_zero F inputs labels_var hcont hmom
  · intro bc_names pde_bc labels_bc outputs_var hz
    exact bcLossFrom_zero outputs_var pde_bc labels_bc 0 bc_names hz
  · exact compute_eq_loss_zero _ _ _ (fun k => zero_field_continuity _)
      (fun c k => zero_field_momentum c _)

/-- Witness for C5: the zero field on the single row (0,0,0) with zero labels
has equation loss 0, and the empty boundary configuration has boundary
loss 0. -/
theorem losses_vanish_witness :
    compute_eq_loss (fun _ _ => (0 : ℝ)) (fun _ : Fin 1 => fun _ => (0 : ℝ))
        (fun _ _ => (0 : ℝ)) = 0 ∧
      compute_bc_loss [] (fun _ => []) (fun _ => []) [] = some 0 :=
  ⟨losses_vanish_on_exact_solution.1 1 (fun _ _ => (0 : ℝ))
      (fun _ => fun _ => (0 : ℝ)) (fun _ _ => (0 : ℝ))
      (fun _ => zero_field_continuity _) (fun c _ => zero_field_momentum c _),
    losses_vanish_on_exact_solution.2.1 [] (fun _ => []) (fun _ => []) []
      trivial⟩

/-- C2: for a boundary configuration whose output tensors are present, whose
label lists cover every sub-condition, whose sub-condition names are all in
the fixed mapping and whose weights are non-negative, `compute_bc_loss`
returns the accumulated sum over each boundary (the boundary at position `i`
using `outputs_var[i + 1]`) and each labeled sub-condition of
`wgt * norm(out[:, index] - rhs)^2`, computed with scale constant 10000. -/
theorem compute_bc_loss_formula (bc_names : List String)
    (pde_bc : String → List String) (labels_bc : String → List BCLabel)
    (outputs_var : List (List (Fin 4 → ℝ)))
    (hlen : ∀ k, k < bc_names.length → k + 1 < outputs_var.length)
    (hlab : ∀ nb ∈ bc_names, (pde_bc nb).length ≤ (labels_bc nb).length)
    (hname : ∀ nb ∈ bc_names, ∀ cn ∈ pde_bc nb, (name2index cn).isSome)
    (hw : ∀ nb ∈ bc_names, ∀ lab ∈ labels_bc nb, 0 ≤ lab.weight) :
    compute_bc_loss bc_names pde_bc labels_bc outputs_var =
      some (bc_loss_spec bc_names pde_bc labels_bc outputs_var) := by
  unfold compute_bc_loss bc_loss_spec
  exact bcLossFrom_eval outputs_var pde_bc labels_bc 0 bc_names
    (fun k hk => by have := hlen k hk; omega) hlab hname hw

/-- Witness for C2 at a one-boundary, one-condition configuration. -/
theorem compute_bc_loss_formula_witness :
    compute_bc_loss ["b"] (fun _ => ["u"]) (fun _ => [⟨0, 1⟩])
        [[], [fun _ => (1 : ℝ)]] =
      some (bc_loss_spec ["b"] (fun _ => ["u"]) (fun _ => [⟨0, 1⟩])
        [[], [fun _ => (1 : ℝ)]]) :=
  compute_bc_loss_formula ["b"] (fun _ => ["u"]) (fun _ => [⟨0, 1⟩])
    [[], [fun _ => (1 : ℝ)]]
    (fun k hk => by simp at hk ⊢; omega)
    (fun nb _ => by simp)
    (fun nb _ cn hcn => by
      simp only [List.mem_singleton] at hcn
      subst hcn
      rfl)
    (fun nb _ lab hl => by
      simp only [List.mem_singleton] at hl
      subst hl
      norm_num)

/-- Counterexample to C4: in a configuration with a single boundary and a
single sub-condition (channel u, rhs 0, one output row with value 1), the
sub-condition's contribution is the whole returned value; doubling the weight
from 1 to 2 changes the value from 1 to 2, not to 4 * 1. -/
theorem bc_weight_double_counterexample :
    compute_bc_loss ["b"] (fun _ => ["u"]) (fun _ => [⟨0, 1⟩])
        [[], [fun _ => (1 : ℝ)]] = some 1 ∧
      compute_bc_loss ["b"] (fun _ => ["u"]) (fun _ => [⟨0, 2⟩])
        [[], [fun _ => (1 : ℝ)]] = some 2 ∧
      (2 : ℝ) ≠ 4 * 1 :=
  ⟨bc_single_loss 1 (by norm_num), bc_single_loss 2 (by norm_num),
    by norm_num⟩

/-- C4 amended: doubling the weight of one boundary sub-condition doubles
(not quadruples) that sub-condition's additive contribution `bcSubLoss` to
the value returned by `compute_bc_loss` (the weight enters under a square
root inside a squared norm, so it acts linearly). -/
theorem bc_weight_double_doubles (out_el : List (Fin 4 → ℝ)) (cname : String)
    (rhs w : ℝ) (idx : Fin 4) (hidx : name2index cname = some idx)
    (hw : 0 ≤ w) :
    bcSubLoss out_el cname ⟨rhs, 2 * w⟩ =
      (bcSubLoss out_el cname ⟨rhs, w⟩).map fun t => 2 * t := by
  rw [bcSubLoss_eval out_el cname ⟨rhs, 2 * w⟩ idx hidx (by positivity),
    bcSubLoss_eval out_el cname ⟨rhs, w⟩ idx hidx hw]
  simp only [Option.map_some']
  congr 1
  ring

/-- Witness for the amended C4 at one output row with value 1, channel u,
weight 1. -/
theorem bc_weight_double_doubles_witness :
    name2index "u" = some 0 ∧ (0 : ℝ) ≤ 1 ∧
      bcSubLoss [fun _ => (1 : ℝ)] "u" ⟨0, 2 * 1⟩ =
        (bcSubLoss [fun _ => (1 : ℝ)] "u" ⟨0, 1⟩).map fun t => 2 * t :=
  ⟨rfl, by norm_num,
    bc_weight_double_doubles [fun _ => (1 : ℝ)] "u" 0 1 0 rfl (by norm_num)⟩

/-- C6: the value returned by `compute_eq_loss` is non-negative, and every
scalar returned by `compute_bc_loss` is non-negative (each is a sum of
squared L2 norms starting from 0.0). -/
theorem losses_nonneg :
    (∀ (m : ℕ) (F : (Fin 3 → ℝ) → Fin 4 → ℝ) (inputs : Fin m → Fin 3 → ℝ)
        (labels_var : Fin 3 → Fin m → ℝ),
      0 ≤ compute_eq_loss F inputs labels_var) ∧
    (∀ (bc_names : List String) (pde_bc : String → List String)
        (labels_bc : String → List BCLabel)
        (outputs_var : List (List (Fin 4 → ℝ))) (s : ℝ),
      compute_bc_loss bc_names pde_bc labels_bc outputs_var = some s →
      0 ≤ s) :=
  ⟨fun _ F inputs labels_var => compute_eq_loss_nonneg F inputs labels_var,
    fun bc_names pde_bc labels_bc outputs_var s h =>
      bcLossFrom_nonneg outputs_var pde_bc labels_bc 0 bc_names s h⟩

/-- Witness for C6 at the empty boundary configuration. -/
theorem losses_nonneg_witness :
    compute_bc_loss [] (fun _ => []) (fun _ => []) [] = some 0 ∧
      (0 : ℝ) ≤ 0 :=
  ⟨rfl, losses_nonneg.2 [] (fun _ => []) (fun _ => []) [] 0 rfl⟩

/-- C8: `compute_bc_loss` performs no validation of its own: a sub-condition
name outside u, v, w, p makes the `name2index` lookup yield no valid channel
index, and the resulting failure surfaces through the (externally modelled)
tensor-engine indexing; the code has no error branch of its own, so the
failure propagates to the whole call. -/
theorem bc_loss_no_validation :
    (∀ n : String, n ≠ "u" → n ≠ "v" → n ≠ "w" → n ≠ "p" →
      name2index n = none) ∧
    (∀ (out_el : List (Fin 4 → ℝ)) (cname : String) (lab : BCLabel),
      name2index cname = none → bcSubLoss out_el cname lab = none) ∧
    (∀ (bc_names : List String) (pde_bc : String → List String)
        (labels_bc : String → List BCLabel)
        (outputs_var : List (List (Fin 4 → ℝ))) (name_b cname : String),
      name_b ∈ bc_names → cname ∈ pde_bc name_b → name2index cname = none →
      compute_bc_loss bc_names pde_bc labels_bc outputs_var = none) :=
  ⟨name2index_unknown, bcSubLoss_unknown,
    fun bc_names pde_bc labels_bc outputs_var name_b cname h1 h2 h3 =>
      bcLossFrom_unknown outputs_var pde_bc labels_bc 0 bc_names name_b cname
        h1 h2 h3⟩

/-- Witness for C8 with the unknown channel name "q". -/
theorem bc_loss_no_validation_witness :
    name2index "q" = none ∧
      compute_bc_loss ["b"] (fun _ => ["q"]) (fun _ => [⟨0, 1⟩]) [[], []] =
        none :=
  ⟨bc_loss_no_validation.1 "q" (by decide) (by decide) (by decide) (by decide),
    bc_loss_no_validation.2.2 ["b"] (fun _ => ["q"]) (fun _ => [⟨0, 1⟩])
      [[], []] "b" "q" (by simp) (by simp)
      (bc_loss_no_validation.1 "q" (by decide) (by decide) (by decide)
        (by decide))⟩

/-- Witness for C3 at `x = [3]`, `scale = 2`. -/
theorem l2_norm_square_scale_invariant_witness :
    (2 : ℝ) ≠ 0 ∧
      l2_norm_square [(3 : ℝ)] (some 2) = l2_norm_square [(3 : ℝ)] none :=
  ⟨by norm_num,
    (l2_norm_square_sum_sq_and_scale_invariant [(3 : ℝ)]).2 2 (by norm_num)⟩

end PaddleSolverUtils
